import Mathlib

/-!
Verification of the realm-db-reader on-disk traversal engine.

The Rust sources are shallowly embedded: byte buffers become `List Nat`
(one entry per byte), machine integers become `Nat`/`Int` with explicit
wrap-around where it matters, fallible or panicking code returns `Option`
(`none` models a panic, a failed assertion or an `anyhow` error), and the
`while` loops of the binary searches and tree walkers are expressed with an
explicit fuel argument that dominates their loop variant.  Reads past the
end of a buffer, which panic in Rust, are modelled as reading 0; every
theorem below only ever reads in bounds.
-/

/-- Byte string: one `Nat` per byte (each < 256 in well-formed inputs). -/
abbrev Bytes := List Nat

/-- Little-endian read of `n` bytes starting at `offset` (byteorder's
`LittleEndian::read_u16/u32/u64`). -/
def leRead (payload : Bytes) (offset : Nat) : Nat → Nat
  | 0 => 0
  | n + 1 => payload.getD offset 0 + 256 * leRead payload (offset + 1) n

/-- `utils::read_array_value`: bit-packed random access at a width in
0/1/2/4/8/16/32/64 bits.  Width 0 reads 0; an invalid width panics in Rust
and is modelled as 0 here (no theorem uses an invalid width). -/
def readArrayValue (payload : Bytes) (width : Nat) (index : Nat) : Nat :=
  match width with
  | 1 => (payload.getD (index >>> 3) 0 >>> (index &&& 7)) &&& 0x01
  | 2 => (payload.getD (index >>> 2) 0 >>> ((index &&& 3) <<< 1)) &&& 0x03
  | 4 => (payload.getD (index >>> 1) 0 >>> ((index &&& 1) <<< 2)) &&& 0x0F
  | 8 => payload.getD index 0
  | 16 => leRead payload (index * 2) 2
  | 32 => leRead payload (index * 4) 4
  | 64 => leRead payload (index * 8) 8
  | _ => 0

/-- Reinterpret a `u64` as an `i64` (Rust's `i64::from_le_bytes(x.to_le_bytes())`
round trip applied to a `u64` value). -/
def i64OfU64 (u : Nat) : Int :=
  if u < 2 ^ 63 then (u : Int) else (u : Int) - 2 ^ 64

/-- Truncating cast `i64 -> u32` (Rust's `as u32`). -/
def u32OfI64 (n : Int) : Nat := (n % 2 ^ 32).toNat

/-- `realm::NodeHeader`: flags byte and 24-bit element count (the constant
checksum is validated by `parse` and not stored). -/
structure NodeHeader where
  flags : Nat
  size : Nat
  deriving DecidableEq, Repr

/-- `NodeHeader::parse`: 4-byte checksum (must equal 0x41414141, asserted),
1 flags byte, 3 big-endian size bytes.  Failure (short buffer or checksum
mismatch) is `none`. -/
def NodeHeader.parse (buf : Bytes) : Option NodeHeader :=
  if buf.length < 8 then none
  else
    let checksum := leRead buf 0 4
    let flags := buf.getD 4 0
    let size := ((buf.getD 5 0) <<< 16) ||| ((buf.getD 6 0) <<< 8) ||| buf.getD 7 0
    if checksum = 0x41414141 then some ⟨flags, size⟩ else none

def NodeHeader.isInnerBptree (h : NodeHeader) : Bool := h.flags &&& 0x80 ≠ 0

def NodeHeader.hasRefs (h : NodeHeader) : Bool := h.flags &&& 0x40 ≠ 0

def NodeHeader.contextFlag (h : NodeHeader) : Bool := h.flags &&& 0x20 ≠ 0

def NodeHeader.widthScheme (h : NodeHeader) : Nat := (h.flags &&& 0x18) >>> 3

def NodeHeader.width (h : NodeHeader) : Nat := (1 <<< (h.flags &&& 0x07)) >>> 1

/-- `NodeHeader::payload_len`.  Scheme 0 asserts `size < 2^24`; the
unreachable scheme value 3 is `none`. -/
def NodeHeader.payloadLen (h : NodeHeader) : Option Nat :=
  match h.widthScheme with
  | 0 => if h.size < 0x1000000 then some ((h.size * h.width + 7) >>> 3) else none
  | 1 => some (h.size * h.width)
  | 2 => some h.size
  | _ => none

/-- The memory-mapped file: the whole byte sequence. -/
abbrev RealmFile := Bytes

/-- `Realm::slice`: bounds-checked byte view (`none` models the panic on an
offset outside the file). -/
def fileSlice (file : RealmFile) (ref len : Nat) : Option Bytes :=
  if ref + len ≤ file.length then some ((file.drop ref).take len) else none

/-- `Realm::payload`: view starting 8 bytes past the node ref. -/
def filePayload (file : RealmFile) (ref plen : Nat) : Option Bytes :=
  fileSlice file (ref + 8) plen

/-- `Realm::header`: parse the 8-byte node header at `ref`. -/
def headerAt (file : RealmFile) (ref : Nat) : Option NodeHeader :=
  (fileSlice file ref 8).bind NodeHeader.parse

/-- Load a node's payload: header, payload length, then the byte view. -/
def nodePayload (file : RealmFile) (ref : Nat) : Option Bytes := do
  let h ← headerAt file ref
  let plen ← h.payloadLen
  filePayload file ref plen

/- ------------------------------------------------------------------ -/
/- Binary searches (`utils::lower_bound` / `utils::upper_bound`).      -/
/- ------------------------------------------------------------------ -/

/-- One instance of the loop body (A) of `utils::lower_bound`: returns the
new `(size, low)` pair. -/
def lbStep (data : Bytes) (width value size low : Nat) : Nat × Nat :=
  let half := size / 2
  let otherHalf := size - half
  let probe := low + half
  let otherLow := low + otherHalf
  let v := readArrayValue data width probe
  (half, if v < value then otherLow else low)

/-- The three-times-unrolled `while size >= 8` loop of `utils::lower_bound`,
with fuel dominating the loop variant (`size` strictly shrinks). -/
def lbLoop8 (data : Bytes) (width value : Nat) : Nat → Nat → Nat → Nat × Nat
  | 0, size, low => (size, low)
  | fuel + 1, size, low =>
    if 8 ≤ size then
      let p1 := lbStep data width value size low
      let p2 := lbStep data width value p1.1 p1.2
      let p3 := lbStep data width value p2.1 p2.2
      lbLoop8 data width value fuel p3.1 p3.2
    else (size, low)

/-- The trailing `while size > 0` loop of `utils::lower_bound`. -/
def lbLoop1 (data : Bytes) (width value : Nat) : Nat → Nat → Nat → Nat
  | 0, _, low => low
  | fuel + 1, size, low =>
    if 0 < size then
      let p := lbStep data width value size low
      lbLoop1 data width value fuel p.1 p.2
    else low

/-- `utils::lower_bound(data, width, size, value)`. -/
def lowerBound (data : Bytes) (width size value : Nat) : Nat :=
  let p := lbLoop8 data width value size size 0
  lbLoop1 data width value p.1 p.1 p.2

/-- One instance of the loop body of `utils::upper_bound` (the conditional
is `value >= v` instead of `v < value`). -/
def ubStep (data : Bytes) (width value size low : Nat) : Nat × Nat :=
  let half := size / 2
  let otherHalf := size - half
  let probe := low + half
  let otherLow := low + otherHalf
  let v := readArrayValue data width probe
  (half, if v ≤ value then otherLow else low)

/-- The unrolled `while size >= 8` loop of `utils::upper_bound`. -/
def ubLoop8 (data : Bytes) (width value : Nat) : Nat → Nat → Nat → Nat × Nat
  | 0, size, low => (size, low)
  | fuel + 1, size, low =>
    if 8 ≤ size then
      let p1 := ubStep data width value size low
      let p2 := ubStep data width value p1.1 p1.2
      let p3 := ubStep data width value p2.1 p2.2
      ubLoop8 data width value fuel p3.1 p3.2
    else (size, low)

/-- The trailing `while size > 0` loop of `utils::upper_bound`. -/
def ubLoop1 (data : Bytes) (width value : Nat) : Nat → Nat → Nat → Nat
  | 0, _, low => low
  | fuel + 1, size, low =>
    if 0 < size then
      let p := ubStep data width value size low
      ubLoop1 data width value fuel p.1 p.2
    else low

/-- `utils::upper_bound(data, width, size, value)`. -/
def upperBound (data : Bytes) (width size value : Nat) : Nat :=
  let p := ubLoop8 data width value size size 0
  ubLoop1 data width value p.1 p.1 p.2

/-- `Index::lower_bound(keys, size, value)`: the body in `index.rs` is a
verbatim copy of `utils::lower_bound` with the width instantiated to
`KEY_SIZE_BITS = 32`. -/
def indexLowerBound (keys : Bytes) (size value : Nat) : Nat :=
  lowerBound keys 32 size value

/- ------------------------------------------------------------------ -/
/- Textbook lower/upper bound (the specification side).                -/
/- ------------------------------------------------------------------ -/

/-- Least `i < n` satisfying `p`, and `n` when none exists. -/
def leastIdx (p : Nat → Bool) : Nat → Nat
  | 0 => 0
  | n + 1 =>
    let m := leastIdx p n
    if m < n then m else if p n then n else n + 1

/-- Textbook lower bound: least position whose element is ≥ the probe,
`size` when none exists. -/
def textbookLowerBound (v : Nat → Nat) (size value : Nat) : Nat :=
  leastIdx (fun i => decide (value ≤ v i)) size

/-- Textbook upper bound: least position whose element is > the probe,
`size` when none exists. -/
def textbookUpperBound (v : Nat → Nat) (size value : Nat) : Nat :=
  leastIdx (fun i => decide (value < v i)) size

/-- The array `data`, read at `width`, is sorted non-decreasing on its
first `n` elements. -/
def SortedLE (data : Bytes) (width n : Nat) : Prop :=
  ∀ j, j < n → ∀ i, i ≤ j → readArrayValue data width i ≤ readArrayValue data width j

instance (data : Bytes) (width n : Nat) : Decidable (SortedLE data width n) := by
  unfold SortedLE; infer_instance

theorem leastIdx_le (p : Nat → Bool) (n : Nat) : leastIdx p n ≤ n := by
  induction n with
  | zero => simp [leastIdx]
  | succ n ih =>
    simp only [leastIdx]
    split
    · omega
    · split <;> omega

theorem leastIdx_not (p : Nat → Bool) (n : Nat) :
    ∀ i, i < leastIdx p n → p i = false := by
  induction n with
  | zero => intro i hi; simp [leastIdx] at hi
  | succ n ih =>
    intro i hi
    simp only [leastIdx] at hi
    split at hi
    · exact ih i hi
    · split at hi
      · exact ih i (by omega)
      · rcases Nat.lt_succ_iff_lt_or_eq.mp hi with h | h
        · exact ih i (by omega)
        · subst h
          rename_i hnot hpn
          simpa using hpn

theorem leastIdx_holds (p : Nat → Bool) (n : Nat) :
    leastIdx p n < n → p (leastIdx p n) = true := by
  induction n with
  | zero => intro h; omega
  | succ n ih =>
    intro h
    simp only [leastIdx] at h ⊢
    by_cases hlt : leastIdx p n < n
    · rw [if_pos hlt] at h ⊢
      exact ih hlt
    · rw [if_neg hlt] at h ⊢
      cases hpn : p n with
      | true => simp [hpn]
      | false => simp [hpn] at h

theorem leastIdx_eq_of (p : Nat → Bool) (n m : Nat) (h1 : m ≤ n)
    (h2 : ∀ i, i < m → p i = false) (h3 : m < n → p m = true) :
    leastIdx p n = m := by
  rcases Nat.lt_trichotomy (leastIdx p n) m with h | h | h
  · have hm : m ≤ n := h1
    have := h2 _ h
    have := leastIdx_holds p n (by omega)
    simp_all
  · exact h
  · have hlt : m < n := by
      have := leastIdx_le p n
      omega
    have := leastIdx_not p n m h
    have := h3 hlt
    simp_all

/-- Loop invariant of the optimized lower bound: everything strictly below
`low` is < `value`, everything at or beyond `low + size` (within the first
`n` elements) is ≥ `value`. -/
def LBInv (data : Bytes) (width n value size low : Nat) : Prop :=
  low + size ≤ n ∧
  (∀ i, i < low → readArrayValue data width i < value) ∧
  (∀ i, low + size ≤ i → i < n → value ≤ readArrayValue data width i)

theorem lbStep_fst (data : Bytes) (width value size low : Nat) :
    (lbStep data width value size low).1 = size / 2 := rfl

theorem lbStep_inv (data : Bytes) (width n value size low : Nat)
    (hs : 0 < size) (hsort : SortedLE data width n)
    (h : LBInv data width n value size low) :
    LBInv data width n value (lbStep data width value size low).1
      (lbStep data width value size low).2 := by
  obtain ⟨h1, h2, h3⟩ := h
  simp only [lbStep]
  set half := size / 2 with hhalf
  set probe := low + half with hprobe
  split
  · rename_i hv
    refine ⟨by omega, ?_, ?_⟩
    · intro i hi
      by_cases hil : i < low
      · exact h2 i hil
      · have hip : i ≤ probe := by omega
        have hpn : probe < n := by omega
        have := hsort probe hpn i hip
        omega
    · intro i hge hn
      exact h3 i (by omega) hn
  · rename_i hv
    refine ⟨by omega, h2, ?_⟩
    intro i hge hn
    have hpi : probe ≤ i := by omega
    have := hsort i hn probe hpi
    omega

theorem lbLoop1_inv (data : Bytes) (width n value : Nat)
    (hsort : SortedLE data width n) :
    ∀ fuel size low, size ≤ fuel → LBInv data width n value size low →
      LBInv data width n value 0 (lbLoop1 data width value fuel size low) := by
  intro fuel
  induction fuel with
  | zero =>
    intro size low hle h
    have : size = 0 := by omega
    subst this
    simpa [lbLoop1] using h
  | succ fuel ih =>
    intro size low hle h
    simp only [lbLoop1]
    split
    · rename_i hpos
      have hstep := lbStep_inv data width n value size low hpos hsort h
      rw [lbStep_fst] at hstep
      rw [lbStep_fst]
      exact ih _ _ (by omega) hstep
    · rename_i hpos
      have : size = 0 := by omega
      subst this
      exact h

theorem lbLoop8_inv (data : Bytes) (width n value : Nat)
    (hsort : SortedLE data width n) :
    ∀ fuel size low, size ≤ fuel → LBInv data width n value size low →
      LBInv data width n value (lbLoop8 data width value fuel size low).1
        (lbLoop8 data width value fuel size low).2 := by
  intro fuel
  induction fuel with
  | zero =>
    intro size low hle h
    simpa [lbLoop8] using h
  | succ fuel ih =>
    intro size low hle h
    simp only [lbLoop8]
    split
    · rename_i h8
      have i1 := lbStep_inv data width n value size low (by omega) hsort h
      rw [lbStep_fst] at i1
      have i2 := lbStep_inv data width n value (size / 2) _ (by omega) hsort i1
      rw [lbStep_fst] at i2
      have i3 := lbStep_inv data width n value (size / 2 / 2) _ (by omega) hsort i2
      rw [lbStep_fst] at i3
      simp only [lbStep_fst]
      exact ih _ _ (by omega) i3
    · exact h

/-- The optimized, unrolled `utils::lower_bound` computes the textbook lower
bound on any array that is sorted on its first `size` elements. -/
theorem lowerBound_eq_textbook (data : Bytes) (width size value : Nat)
    (hsort : SortedLE data width size) :
    lowerBound data width size value =
      textbookLowerBound (readArrayValue data width) size value := by
  have hinit : LBInv data width size value size 0 :=
    ⟨by omega, by omega, by omega⟩
  have h8 := lbLoop8_inv data width size value hsort size size 0 (le_refl _) hinit
  have h1 := lbLoop1_inv data width size value hsort
    (lbLoop8 data width value size size 0).1
    (lbLoop8 data width value size size 0).1
    (lbLoop8 data width value size size 0).2 (le_refl _) h8
  obtain ⟨hle, hlt, hge⟩ := h1
  have hdef : lowerBound data width size value =
      lbLoop1 data width value (lbLoop8 data width value size size 0).1
        (lbLoop8 data width value size size 0).1
        (lbLoop8 data width value size size 0).2 := rfl
  rw [hdef]
  unfold textbookLowerBound
  refine (leastIdx_eq_of _ _ _ (by omega) ?_ ?_).symm
  · intro i hi
    simp only [decide_eq_false_iff_not, not_le]
    exact hlt i hi
  · intro hlt2
    simp only [decide_eq_true_eq]
    exact hge _ (by omega) hlt2

/-- Loop invariant of the optimized upper bound: everything strictly below
`low` is ≤ `value`, everything at or beyond `low + size` is > `value`. -/
def UBInv (data : Bytes) (width n value size low : Nat) : Prop :=
  low + size ≤ n ∧
  (∀ i, i < low → readArrayValue data width i ≤ value) ∧
  (∀ i, low + size ≤ i → i < n → value < readArrayValue data width i)

theorem ubStep_fst (data : Bytes) (width value size low : Nat) :
    (ubStep data width value size low).1 = size / 2 := rfl

theorem ubStep_inv (data : Bytes) (width n value size low : Nat)
    (hs : 0 < size) (hsort : SortedLE data width n)
    (h : UBInv data width n value size low) :
    UBInv data width n value (ubStep data width value size low).1
      (ubStep data width value size low).2 := by
  obtain ⟨h1, h2, h3⟩ := h
  simp only [ubStep]
  set half := size / 2 with hhalf
  set probe := low + half with hprobe
  split
  · rename_i hv
    refine ⟨by omega, ?_, ?_⟩
    · intro i hi
      by_cases hil : i < low
      · exact h2 i hil
      · have hip : i ≤ probe := by omega
        have hpn : probe < n := by omega
        have := hsort probe hpn i hip
        omega
    · intro i hge hn
      exact h3 i (by omega) hn
  · rename_i hv
    refine ⟨by omega, h2, ?_⟩
    intro i hge hn
    have hpi : probe ≤ i := by omega
    have := hsort i hn probe hpi
    omega

theorem ubLoop1_inv (data : Bytes) (width n value : Nat)
    (hsort : SortedLE data width n) :
    ∀ fuel size low, size ≤ fuel → UBInv data width n value size low →
      UBInv data width n value 0 (ubLoop1 data width value fuel size low) := by
  intro fuel
  induction fuel with
  | zero =>
    intro size low hle h
    have : size = 0 := by omega
    subst this
    simpa [ubLoop1] using h
  | succ fuel ih =>
    intro size low hle h
    simp only [ubLoop1]
    split
    · rename_i hpos
      have hstep := ubStep_inv data width n value size low hpos hsort h
      rw [ubStep_fst] at hstep
      rw [ubStep_fst]
      exact ih _ _ (by omega) hstep
    · rename_i hpos
      have : size = 0 := by omega
      subst this
      exact h

theorem ubLoop8_inv (data : Bytes) (width n value : Nat)
    (hsort : SortedLE data width n) :
    ∀ fuel size low, size ≤ fuel → UBInv data width n value size low →
      UBInv data width n value (ubLoop8 data width value fuel size low).1
        (ubLoop8 data width value fuel size low).2 := by
  intro fuel
  induction fuel with
  | zero =>
    intro size low hle h
    simpa [ubLoop8] using h
  | succ fuel ih =>
    intro size low hle h
    simp only [ubLoop8]
    split
    · rename_i h8
      have i1 := ubStep_inv data width n value size low (by omega) hsort h
      rw [ubStep_fst] at i1
      have i2 := ubStep_inv data width n value (size / 2) _ (by omega) hsort i1
      rw [ubStep_fst] at i2
      have i3 := ubStep_inv data width n value (size / 2 / 2) _ (by omega) hsort i2
      rw [ubStep_fst] at i3
      simp only [ubStep_fst]
      exact ih _ _ (by omega) i3
    · exact h

/-- The optimized, unrolled `utils::upper_bound` computes the textbook upper
bound on any array that is sorted on its first `size` elements. -/
theorem upperBound_eq_textbook (data : Bytes) (width size value : Nat)
    (hsort : SortedLE data width size) :
    upperBound data width size value =
      textbookUpperBound (readArrayValue data width) size value := by
  have hinit : UBInv data width size value size 0 :=
    ⟨by omega, by omega, by omega⟩
  have h8 := ubLoop8_inv data width size value hsort size size 0 (le_refl _) hinit
  have h1 := ubLoop1_inv data width size value hsort
    (ubLoop8 data width value size size 0).1
    (ubLoop8 data width value size size 0).1
    (ubLoop8 data width value size size 0).2 (le_refl _) h8
  obtain ⟨hle, hlt, hge⟩ := h1
  have hdef : upperBound data width size value =
      ubLoop1 data width value (ubLoop8 data width value size size 0).1
        (ubLoop8 data width value size size 0).1
        (ubLoop8 data width value size size 0).2 := rfl
  rw [hdef]
  unfold textbookUpperBound
  refine (leastIdx_eq_of _ _ _ (by omega) ?_ ?_).symm
  · intro i hi
    simp only [decide_eq_false_iff_not, not_lt]
    exact hlt i hi
  · intro hlt2
    simp only [decide_eq_true_eq]
    exact hge _ (by omega) hlt2

/- ------------------------------------------------------------------ -/
/- B+Tree walker (`utils.rs` and `column/bptree.rs`).                  -/
/- ------------------------------------------------------------------ -/

/-- `utils::find_child_from_offsets`: upper-bound-search the offsets array
for the element index; the child ordinal is the found position and the
index in the child is the element index minus the previous offset
(0 for ordinal 0). -/
def findChildFromOffsets (file : RealmFile) (offsetsRef width elemNdx : Nat) :
    Option (Nat × Nat) := do
  let header ← headerAt file offsetsRef
  let plen ← header.payloadLen
  let offsetsData ← filePayload file offsetsRef plen
  let offsetsSize := header.size
  let childIndex := upperBound offsetsData width offsetsSize elemNdx
  let elemNdxOffset :=
    if childIndex = 0 then 0 else readArrayValue offsetsData width (childIndex - 1)
  some (childIndex, elemNdx - elemNdxOffset)

/-- `utils::find_bptree_child`: compact form (odd first value) divides by
`elements_per_child` (a division by zero panics in Rust and is `none`
here); general form (even first value) follows the first value as a ref to
the offsets array, re-reading that array's own width. -/
def findBptreeChild (file : RealmFile) (firstValue index : Nat) :
    Option (Nat × Nat) :=
  if firstValue % 2 ≠ 0 then
    let elemsPerChild := firstValue / 2
    if elemsPerChild = 0 then none
    else some (index / elemsPerChild, index % elemsPerChild)
  else
    if firstValue % 8 ≠ 0 then none
    else do
      let offsetsHeader ← headerAt file firstValue
      findChildFromOffsets file firstValue offsetsHeader.width index

/-- `utils::find_bptree_child_in_payload`: read slot 0 as the form word,
locate the child ordinal, then read the child ref from slot
`1 + child_index` (the `RealmRef::new` 8-alignment assertion is `none`). -/
def findBptreeChildInPayload (file : RealmFile) (payload : Bytes)
    (width index : Nat) : Option (Nat × Nat) := do
  let firstValue := readArrayValue payload width 0
  let (childIndex, indexInChild) ← findBptreeChild file firstValue index
  let childRef := readArrayValue payload width (1 + childIndex)
  if childRef % 8 ≠ 0 then none
  else some (childRef, indexInChild)

/-- `BpTreeNode::get_bptree_leaf`: repeatedly locate the child for the
current element index, stopping at the first child whose inner-B+Tree flag
is clear; the element width and payload are re-read from the child header
on every descent. -/
def getBptreeLeaf (file : RealmFile) : Nat → Nat → Nat → Option (Nat × Nat)
  | 0, _, _ => none
  | fuel + 1, ref, index => do
    let h ← headerAt file ref
    let plen ← h.payloadLen
    let payload ← filePayload file ref plen
    let (childRef, indexInChild) ← findBptreeChildInPayload file payload h.width index
    let childHeader ← headerAt file childRef
    if childHeader.isInnerBptree then getBptreeLeaf file fuel childRef indexInChild
    else some (childRef, indexInChild)

/-- Modelled from the spec, §4.3: the compact-form walk stated as a plain
iteration.  At a node whose inner-B+Tree flag is clear, stop and return the
pair; otherwise require slot 0 odd (compact form, with
`epc = slot0 >> 1 > 0` per the §3 invariant), read the child ref from slot
`1 + index / epc` (an 8-aligned ref per the §3 invariant), and continue
with `index % epc`.  Any violation of these side conditions is `none`, so
success certifies that only compact inner nodes were met. -/
def compactDescend (file : RealmFile) : Nat → Nat → Nat → Option (Nat × Nat)
  | 0, _, _ => none
  | fuel + 1, ref, index => do
    let h ← headerAt file ref
    if ¬h.isInnerBptree then some (ref, index)
    else
      let plen ← h.payloadLen
      let payload ← filePayload file ref plen
      let slot0 := readArrayValue payload h.width 0
      if slot0 % 2 = 0 then none
      else
        let epc := slot0 >>> 1
        if epc = 0 then none
        else
          let childRef := readArrayValue payload h.width (1 + index / epc)
          if childRef % 8 ≠ 0 then none
          else compactDescend file fuel childRef (index % epc)

/-- `array/mod.rs` `BPTreeForm`: compact stores the elements-per-child
count, general ("Regular") stores the loaded offsets array (here: its
ref). -/
inductive BPTreeForm where
  | compact (elementsPerChild : Nat)
  | regular (offsetsRef : Nat)
  deriving DecidableEq, Repr

/-- `array/mod.rs` `BPTreeArray`. -/
structure BPTreeArrayM where
  form : BPTreeForm
  totalElements : Nat
  deriving DecidableEq, Repr

/-- The inner-B+Tree branch of `Array::<T>::from_ref` in `array/mod.rs`:
slot 0 selects the form by parity, the last slot holds twice the total
element count, and the Regular form loads the offsets array from slot 0 as
a ref. -/
def bptreeArrayFromNode (file : RealmFile) (ref : Nat) : Option BPTreeArrayM := do
  let h ← headerAt file ref
  if ¬h.isInnerBptree then none
  else if ¬h.hasRefs then none
  else if h.size < 2 then none
  else
    let plen ← h.payloadLen
    let payload ← filePayload file ref plen
    let head := readArrayValue payload h.width 0
    let totalElements := readArrayValue payload h.width (h.size - 1) / 2
    if head % 2 ≠ 0 then some ⟨.compact (head / 2), totalElements⟩
    else
      if head % 8 ≠ 0 then none
      else do
        let _ ← headerAt file head
        some ⟨.regular head, totalElements⟩

/-- `BPTreeArray::find_bptree_child` in `array/mod.rs`: the out-of-bounds
assertion and the compact `(index / epc + CHILD_OFFSET, index % epc)`
arithmetic; the Regular (general-form) arm is `todo!()` in the source and
therefore panics, modelled as `none`. -/
def BPTreeArrayM.findBptreeChild (a : BPTreeArrayM) (index : Nat) :
    Option (Nat × Nat) :=
  if index < a.totalElements then
    match a.form with
    | .compact epc => if epc = 0 then none else some (index / epc + 1, index % epc)
    | .regular _ => none
  else none

theorem compactDescend_header (file : RealmFile) (fuel r i : Nat)
    (out : Nat × Nat) (h : compactDescend file fuel r i = some out) :
    ∃ ch, headerAt file r = some ch := by
  cases fuel with
  | zero => simp [compactDescend] at h
  | succ f =>
    simp only [compactDescend, Option.bind_eq_bind, Option.bind_eq_some] at h
    obtain ⟨ch, hch, _⟩ := h
    exact ⟨ch, hch⟩

theorem compactDescend_leaf (file : RealmFile) (fuel r i : Nat)
    (out : Nat × Nat) (ch : NodeHeader) (hch : headerAt file r = some ch)
    (hleaf : ch.isInnerBptree = false)
    (h : compactDescend file fuel r i = some out) : out = (r, i) := by
  cases fuel with
  | zero => simp [compactDescend] at h
  | succ f =>
    simp only [compactDescend, Option.bind_eq_bind, Option.bind_eq_some] at h
    obtain ⟨ch2, hch2, h⟩ := h
    rw [hch] at hch2
    cases hch2
    rw [if_pos (by simp [hleaf])] at h
    cases h
    rfl

/-- Whenever the spec-level compact-form iteration succeeds on an inner
root (certifying that only compact inner nodes are met along the way), the
implementation's `get_bptree_leaf` returns exactly the same
`(leaf_ref, index_in_leaf)` pair. -/
theorem compactDescend_eq_getBptreeLeaf (file : RealmFile) :
    ∀ fuel ref index out,
      Option.all (fun h => h.isInnerBptree) (headerAt file ref) = true →
      compactDescend file fuel ref index = some out →
      getBptreeLeaf file fuel ref index = some out := by
  intro fuel
  induction fuel with
  | zero =>
    intro ref index out _ hcd
    simp [compactDescend] at hcd
  | succ fuel ih =>
    intro ref index out hinner hcd
    simp only [compactDescend, Option.bind_eq_bind, Option.bind_eq_some] at hcd
    obtain ⟨h, hh, hcd⟩ := hcd
    have hinn : h.isInnerBptree = true := by
      rw [hh] at hinner
      simpa [Option.all] using hinner
    rw [if_neg (by simp [hinn])] at hcd
    simp only [Option.bind_eq_some] at hcd
    obtain ⟨plen, hplen, hcd⟩ := hcd
    obtain ⟨payload, hpayload, hcd⟩ := hcd
    by_cases h2 : readArrayValue payload h.width 0 % 2 = 0
    · rw [if_pos h2] at hcd
      simp at hcd
    · rw [if_neg h2] at hcd
      by_cases he : readArrayValue payload h.width 0 >>> 1 = 0
      · rw [if_pos he] at hcd
        simp at hcd
      · rw [if_neg he] at hcd
        by_cases hr8 : readArrayValue payload h.width
            (1 + index / (readArrayValue payload h.width 0 >>> 1)) % 8 ≠ 0
        · rw [if_pos hr8] at hcd
          simp at hcd
        · rw [if_neg hr8] at hcd
          -- hcd is now the recursive call on the child
          set slot0 := readArrayValue payload h.width 0 with hslot0
          set epc := slot0 >>> 1 with hepc
          set childRef := readArrayValue payload h.width (1 + index / epc)
            with hchildRef
          obtain ⟨ch, hch⟩ := compactDescend_header file fuel childRef
            (index % epc) out hcd
          have hfind : findBptreeChildInPayload file payload h.width index =
              some (childRef, index % epc) := by
            simp only [findBptreeChildInPayload, findBptreeChild,
              Option.bind_eq_bind]
            rw [if_pos (by omega : slot0 % 2 ≠ 0)]
            rw [show slot0 / 2 = epc from by rw [hepc, Nat.shiftRight_one]]
            rw [if_neg (by omega : ¬epc = 0)]
            simp only [Option.some_bind]
            rw [← hchildRef, if_neg hr8]
          simp only [getBptreeLeaf, hh, hplen, hpayload, Option.bind_eq_bind,
            Option.some_bind, hfind, hch]
          by_cases hchi : ch.isInnerBptree = true
          · rw [if_pos hchi]
            exact ih childRef (index % epc) out (by rw [hch]; simpa [Option.all]) hcd
          · rw [if_neg hchi]
            have := compactDescend_leaf file fuel childRef (index % epc) out ch
              hch (by simpa using hchi) hcd
            rw [this]

/-- A concrete file holding a two-level compact-form B+Tree: an inner root
at ref 8 (form word 5, i.e. epc = 2; one child ref 24; last slot 4 =
2 × total) over a width-8 integer leaf at ref 24 with payload 10, 20. -/
def c3File : RealmFile :=
  [0, 0, 0, 0, 0, 0, 0, 0,
   0x41, 0x41, 0x41, 0x41, 0xC4, 0, 0, 3, 5, 24, 4,
   0, 0, 0, 0, 0,
   0x41, 0x41, 0x41, 0x41, 0x04, 0, 0, 2, 10, 20]

/-- A concrete file holding a general-form inner B+Tree node at ref 8:
slot 0 is a ref (32) to the offsets array with entries 2, 5; slots 1 and 2
are child refs 48 and 56; the last slot is 10 = 2 × total. -/
def c2File : RealmFile :=
  [0, 0, 0, 0, 0, 0, 0, 0,
   0x41, 0x41, 0x41, 0x41, 0xC4, 0, 0, 4, 32, 48, 56, 10,
   0, 0, 0, 0, 0, 0, 0, 0, 0, 0, 0, 0,
   0x41, 0x41, 0x41, 0x41, 0x04, 0, 0, 2, 2, 5]

/-- C3: for every inner B+Tree node in compact form (slot 0 odd) with
`epc = slot0 >> 1` and every in-range element index `i`, the walker reads
the child reference from slot `1 + i / epc` and continues with index
`i % epc` inside that child; iterating this step (which `compactDescend`
does, re-reading the element width from the header at every level) until a
node with the inner-B+Tree flag clear is reached yields exactly the
`(leaf_ref, index_in_leaf)` pair returned by `get_bptree_leaf`. -/
theorem claim_C3 (file : RealmFile) (fuel ref index : Nat) (out : Nat × Nat)
    (hroot : Option.all (fun h => h.isInnerBptree) (headerAt file ref) = true)
    (hwalk : compactDescend file fuel ref index = some out) :
    getBptreeLeaf file fuel ref index = some out :=
  compactDescend_eq_getBptreeLeaf file fuel ref index out hroot hwalk

theorem claim_C3_witness :
    Option.all (fun h => h.isInnerBptree) (headerAt c3File 8) = true ∧
    compactDescend c3File 2 8 1 = some (24, 1) ∧
    getBptreeLeaf c3File 2 8 1 = some (24, 1) :=
  ⟨by decide, by decide, claim_C3 c3File 2 8 1 (24, 1) (by decide) (by decide)⟩

/-- C2: the `utils.rs` walker does implement the general form — on the
general-form node of `c2File` (slot 0 even, offsets 2 and 5) and element
index 3 it upper-bound-searches the offsets array at that array's own
width (position 1), sets `index_in_child = 3 − offsets[0] = 1` and reads
the child ref from slot `1 + 1` — but the Array-based walker
(`BPTreeArray::find_bptree_child`) hits `todo!()` (modelled as `none`) on
the very same node, so general form is not implemented on all walker
paths, contradicting the claim. -/
theorem claim_C2 :
    bptreeArrayFromNode c2File 8 = some ⟨.regular 32, 5⟩ ∧
    BPTreeArrayM.findBptreeChild ⟨.regular 32, 5⟩ 3 = none ∧
    nodePayload c2File 8 = some [32, 48, 56, 10] ∧
    findBptreeChildInPayload c2File [32, 48, 56, 10] 8 3 = some (56, 1) ∧
    upperBound [2, 5] 8 2 3 = 1 ∧
    readArrayValue [2, 5] 8 0 = 2 :=
  ⟨by decide, by decide, by decide, by decide, by decide, by decide⟩

/- ------------------------------------------------------------------ -/
/- On-disk string index (`index.rs`).                                  -/
/- ------------------------------------------------------------------ -/

theorem lor_mul_two_pow_eq_add (k : Nat) :
    ∀ a b : Nat, a < 2 ^ k → a ||| b * 2 ^ k = a + b * 2 ^ k := by
  induction k with
  | zero =>
    intro a b ha
    interval_cases a
    simp
  | succ k ih =>
    intro a b ha
    have h1 : a = Nat.bit a.bodd a.div2 := (Nat.bit_decomp a).symm
    have h2 : b * 2 ^ (k + 1) = Nat.bit false (b * 2 ^ k) := by
      simp [Nat.bit_val]
      ring
    have hp : (2 : Nat) ^ (k + 1) = 2 * 2 ^ k := by ring
    have hdiv : a.div2 < 2 ^ k := by
      rw [Nat.div2_val]
      omega
    rw [h1, h2, Nat.lor_bit, ih a.div2 b hdiv]
    have hbd := Nat.bodd_add_div2 a
    rw [Nat.div2_val] at hbd
    simp [Nat.bit_val, Nat.div2_val]
    omega

theorem lor_shiftLeft_eq_add (k a b : Nat) (ha : a < 2 ^ k) :
    a ||| b <<< k = a + b <<< k := by
  rw [Nat.shiftLeft_eq]
  exact lor_mul_two_pow_eq_add k a b ha

/-- The probe values `Index::find_first` accepts: `coerce_to_string` hits
`unimplemented!` for every other `Value` variant.  Strings are modelled at
the byte level (the embedding assumes single-byte characters, on which
Rust's `char_indices` coincides with byte positions). -/
inductive RValue where
  | str (s : Bytes)
  | int (n : Int)
  | bool (b : Bool)
  deriving DecidableEq, Repr

/-- Bytes of a Lean string (used for the decimal renderings below). -/
def strBytes (s : String) : Bytes := s.toList.map Char.toNat

/-- `Index::coerce_to_string`: strings stay as they are, integers become
their decimal rendering (`n.to_string()`), booleans become the words
rendered by `b.to_string()`. -/
def coerceToString : RValue → Bytes
  | .str s => s
  | .int n => strBytes (toString n)
  | .bool b => strBytes (toString b)

/-- `Index::create_key`: fold the first four characters into a 32-bit key,
character `i` shifted to bit position `8 * i` (least significant byte
first). -/
def createKey (value : Bytes) : Nat :=
  ((value.take 4).enum).foldl (fun key ic => key ||| (ic.2 <<< (ic.1 * 8))) 0

/-- `Index::create_key_with_offset`.  `offset > len` returns 0.  A tail
shorter than four bytes builds a 4-byte buffer: zeroes, then `X` (0x58) at
position `tail`, then every byte of the whole value copied from position 0
(this last loop indexes the 4-byte buffer with all of the value's
character positions and hence panics — `none` — whenever the value is
longer than 4).  Otherwise the key is `create_key` of the value from
`offset` on. -/
def createKeyWithOffset (value : Bytes) (offset : Nat) : Option Nat :=
  if value.length < offset then some 0
  else
    let tail := value.length - offset
    if tail < 4 then
      if 4 < value.length then none
      else some (createKey (value ++ (((List.replicate 4 0).set tail 88).drop value.length)))
    else some (createKey (value.drop offset))

/-- Little-endian packing of the four bytes of `b` starting at `o`
(missing bytes read as 0). -/
def lePack (b : Bytes) (o : Nat) : Nat :=
  b.getD o 0 + 256 * b.getD (o + 1) 0 + 65536 * b.getD (o + 2) 0 +
    16777216 * b.getD (o + 3) 0

/-- Big-endian packing of the four bytes of `b` starting at `o` (the
packing the spec claims; missing bytes read as 0). -/
def bePack (b : Bytes) (o : Nat) : Nat :=
  b.getD (o + 3) 0 + 256 * b.getD (o + 2) 0 + 65536 * b.getD (o + 1) 0 +
    16777216 * b.getD o 0
/-- On byte strings (all entries < 256), `create_key` packs the first four
bytes little-endian: byte 0 lands in the least significant key byte. -/
theorem createKey_eq_lePack (b : Bytes) (hb : ∀ c ∈ b, c < 256) :
    createKey b = lePack b 0 := by
  match b with
  | [] => simp [createKey, lePack]
  | [a0] =>
    have ha0 : a0 < 256 := hb a0 (by simp)
    have e : createKey [a0] = 0 ||| a0 <<< (0 * 8) := rfl
    rw [e]
    simp [lePack]
  | [a0, a1] =>
    have ha0 : a0 < 256 := hb a0 (by simp)
    have ha1 : a1 < 256 := hb a1 (by simp)
    have e : createKey [a0, a1] = (0 ||| a0 <<< (0 * 8)) ||| a1 <<< (1 * 8) := rfl
    rw [e]
    simp only [Nat.zero_mul, Nat.shiftLeft_zero, Nat.zero_or, Nat.one_mul]
    rw [lor_shiftLeft_eq_add 8 a0 a1 (by omega)]
    simp [lePack, Nat.shiftLeft_eq]
    ring
  | [a0, a1, a2] =>
    have ha0 : a0 < 256 := hb a0 (by simp)
    have ha1 : a1 < 256 := hb a1 (by simp)
    have ha2 : a2 < 256 := hb a2 (by simp)
    have e : createKey [a0, a1, a2] =
        ((0 ||| a0 <<< (0 * 8)) ||| a1 <<< (1 * 8)) ||| a2 <<< (2 * 8) := rfl
    rw [e]
    simp only [Nat.zero_mul, Nat.shiftLeft_zero, Nat.zero_or, Nat.one_mul]
    rw [lor_shiftLeft_eq_add 8 a0 a1 (by omega)]
    rw [show (2 * 8 : Nat) = 16 from rfl]
    rw [lor_shiftLeft_eq_add 16 _ a2 (by rw [Nat.shiftLeft_eq]; norm_num; omega)]
    simp [lePack, Nat.shiftLeft_eq]
    ring
  | a0 :: a1 :: a2 :: a3 :: rest =>
    have ha0 : a0 < 256 := hb a0 (by simp)
    have ha1 : a1 < 256 := hb a1 (by simp)
    have ha2 : a2 < 256 := hb a2 (by simp)
    have ha3 : a3 < 256 := hb a3 (by simp)
    have e : createKey (a0 :: a1 :: a2 :: a3 :: rest) =
        (((0 ||| a0 <<< (0 * 8)) ||| a1 <<< (1 * 8)) ||| a2 <<< (2 * 8)) ||| a3 <<< (3 * 8) := rfl
    rw [e]
    simp only [Nat.zero_mul, Nat.shiftLeft_zero, Nat.zero_or, Nat.one_mul]
    rw [lor_shiftLeft_eq_add 8 a0 a1 (by omega)]
    rw [show (2 * 8 : Nat) = 16 from rfl, show (3 * 8 : Nat) = 24 from rfl]
    rw [lor_shiftLeft_eq_add 16 _ a2 (by rw [Nat.shiftLeft_eq]; norm_num; omega)]
    rw [lor_shiftLeft_eq_add 24 _ a3 (by rw [Nat.shiftLeft_eq, Nat.shiftLeft_eq]; norm_num; omega)]
    simp [lePack, Nat.shiftLeft_eq]
    ring
theorem getD_drop_zero (l : Bytes) (o i : Nat) :
    (l.drop o).getD i 0 = l.getD (o + i) 0 := by
  rw [List.getD_eq_getD_get?, List.getD_eq_getD_get?, List.get?_drop]

theorem lePack_drop (l : Bytes) (o : Nat) : lePack (l.drop o) 0 = lePack l o := by
  simp [lePack, getD_drop_zero]

theorem getD_replicate_zero (m j : Nat) :
    (List.replicate m (0 : Nat)).getD j 0 = 0 := by
  induction m generalizing j with
  | zero => simp [List.getD]
  | succ m ih =>
    cases j with
    | zero => simp [List.replicate]
    | succ j =>
      simp only [List.replicate, List.getD_cons_succ]
      exact ih j

theorem getD_append_replicate (b : Bytes) (m i : Nat) :
    (b ++ List.replicate m 0).getD i 0 = b.getD i 0 := by
  rcases Nat.lt_or_ge i b.length with h | h
  · rw [List.getD_append _ _ _ _ h]
  · rw [List.getD_append_right _ _ _ _ h, List.getD_eq_default _ _ h,
      getD_replicate_zero]

theorem drop_set_of_lt (l : Bytes) (i n x : Nat) (h : i < n) :
    (l.set i x).drop n = l.drop n := by
  induction l generalizing i n with
  | nil => simp
  | cons a l ih =>
    cases i with
    | zero =>
      cases n with
      | zero => omega
      | succ n => simp [List.set]
    | succ i =>
      cases n with
      | zero => omega
      | succ n =>
        simp only [List.set, List.drop_succ_cons]
        exact ih i n (by omega)

theorem drop_replicate_zero (m n : Nat) :
    (List.replicate m (0 : Nat)).drop n = List.replicate (m - n) 0 := by
  induction n generalizing m with
  | zero => simp
  | succ n ih =>
    cases m with
    | zero => simp
    | succ m =>
      simp only [List.replicate, List.drop_succ_cons]
      rw [ih m]
      congr 1
      omega

theorem createKeyWithOffset_beyond (b : Bytes) (o : Nat) (h : b.length < o) :
    createKeyWithOffset b o = some 0 := by
  simp [createKeyWithOffset, h]

theorem createKeyWithOffset_long (b : Bytes) (hb : ∀ c ∈ b, c < 256) (o : Nat)
    (h : o + 4 ≤ b.length) :
    createKeyWithOffset b o = some (lePack b o) := by
  simp only [createKeyWithOffset]
  rw [if_neg (by omega), if_neg (by omega)]
  rw [createKey_eq_lePack _ (fun c hc => hb c (List.mem_of_mem_drop hc))]
  rw [lePack_drop]

theorem createKeyWithOffset_shortTail (b : Bytes) (hb : ∀ c ∈ b, c < 256)
    (o : Nat) (h1 : o ≤ b.length) (h2 : b.length < o + 4) (h3 : b.length ≤ 4)
    (h4 : 0 < o) :
    createKeyWithOffset b o = some (lePack b 0) := by
  simp only [createKeyWithOffset]
  rw [if_neg (by omega), if_pos (by omega), if_neg (by omega)]
  rw [drop_set_of_lt _ _ _ _ (by omega : b.length - o < b.length)]
  rw [drop_replicate_zero]
  rw [createKey_eq_lePack]
  · simp only [lePack, getD_append_replicate]
  · intro c hc
    rcases List.mem_append.mp hc with h | h
    · exact hb c h
    · rw [List.eq_of_mem_replicate h]
      omega

theorem createKeyWithOffset_panics (b : Bytes) (o : Nat)
    (h1 : o ≤ b.length) (h2 : b.length < o + 4) (h3 : 4 < b.length) :
    createKeyWithOffset b o = none := by
  simp only [createKeyWithOffset]
  rw [if_neg (by omega), if_pos (by omega), if_pos h3]

/-- C1 counterexample: probing the two-byte string "ab" (bytes 97, 98), the
key actually used at trie level 0 is `create_key("ab") = 0x6261` — the
little-endian packing of the raw bytes with no X suffix — whereas the claim
demands the big-endian packing of "abX" zero-padded, 0x61625800. -/
theorem claim_C1_counterexample :
    createKey (coerceToString (.str [97, 98])) = 25185 ∧
    bePack (coerceToString (.str [97, 98]) ++ [88]) 0 = 1633835008 ∧
    createKey (coerceToString (.str [97, 98])) ≠
      bePack (coerceToString (.str [97, 98]) ++ [88]) 0 :=
  ⟨by decide, by decide, by decide⟩

/-- C1 (amended): for a byte-string probe, the key at level 0 is the
LITTLE-endian packing of the first four coerced bytes with no X suffix;
at offset o > 0 the key is `some 0` when o exceeds the length, the
little-endian packing of bytes o..o+4 when at least four bytes remain,
and for a short non-empty tail of a probe of at most four bytes the
buffer-building branch reproduces the level-0 key (the X it writes is
overwritten by the copy loop, which restarts at position 0); a short tail
of a probe longer than four bytes panics.  Integers coerce to their
decimal rendering and booleans to the words true/false, not to raw
little-endian bytes. -/
theorem claim_C1 (b : Bytes) (hb : ∀ c ∈ b, c < 256) (o : Nat) :
    createKey b = lePack b 0 ∧
    (b.length < o → createKeyWithOffset b o = some 0) ∧
    (o + 4 ≤ b.length → createKeyWithOffset b o = some (lePack b o)) ∧
    (o ≤ b.length → b.length < o + 4 → b.length ≤ 4 → 0 < o →
      createKeyWithOffset b o = some (lePack b 0)) ∧
    (o ≤ b.length → b.length < o + 4 → 4 < b.length →
      createKeyWithOffset b o = none) ∧
    coerceToString (.int 7) = [55] ∧
    coerceToString (.bool true) = [116, 114, 117, 101] :=
  ⟨createKey_eq_lePack b hb,
   fun h => createKeyWithOffset_beyond b o h,
   fun h => createKeyWithOffset_long b hb o h,
   fun h1 h2 h3 h4 => createKeyWithOffset_shortTail b hb o h1 h2 h3 h4,
   fun h1 h2 h3 => createKeyWithOffset_panics b o h1 h2 h3,
   by decide, by decide⟩

theorem claim_C1_witness :
    (∀ c ∈ [97, 98, 99, 100, 101], c < 256) ∧
    (createKey [97, 98, 99, 100, 101] = lePack [97, 98, 99, 100, 101] 0 ∧
     (([97, 98, 99, 100, 101] : Bytes).length < 1 →
       createKeyWithOffset [97, 98, 99, 100, 101] 1 = some 0) ∧
     (1 + 4 ≤ ([97, 98, 99, 100, 101] : Bytes).length →
       createKeyWithOffset [97, 98, 99, 100, 101] 1 =
         some (lePack [97, 98, 99, 100, 101] 1)) ∧
     (1 ≤ ([97, 98, 99, 100, 101] : Bytes).length →
       ([97, 98, 99, 100, 101] : Bytes).length < 1 + 4 →
       ([97, 98, 99, 100, 101] : Bytes).length ≤ 4 → 0 < 1 →
       createKeyWithOffset [97, 98, 99, 100, 101] 1 =
         some (lePack [97, 98, 99, 100, 101] 0)) ∧
     (1 ≤ ([97, 98, 99, 100, 101] : Bytes).length →
       ([97, 98, 99, 100, 101] : Bytes).length < 1 + 4 →
       4 < ([97, 98, 99, 100, 101] : Bytes).length →
       createKeyWithOffset [97, 98, 99, 100, 101] 1 = none) ∧
     coerceToString (.int 7) = [55] ∧
     coerceToString (.bool true) = [116, 114, 117, 101]) :=
  ⟨by decide, claim_C1 [97, 98, 99, 100, 101] (by decide) 1⟩

/-- The `Index` struct: the node of the two-slot index array and the
offsets (sorted keys) child node loaded from its slot 0. -/
structure IndexM where
  arrayHdr : NodeHeader
  arrayPayload : Bytes
  offsetsHdr : NodeHeader
  offsetsPayload : Bytes
  deriving DecidableEq, Repr

/-- `Index::from_ref`: load the node (bypassing the B+Tree check), assert
its size ≥ 1, and load slot 0 as the offsets node (`get_node(0)` asserts a
nonzero 8-aligned ref). -/
def indexFromRef (file : RealmFile) (ref : Nat) : Option IndexM := do
  let h ← headerAt file ref
  let plen ← h.payloadLen
  let payload ← filePayload file ref plen
  if h.size < 1 then none
  else
    let r0 := readArrayValue payload h.width 0
    if r0 = 0 then none
    else if r0 % 8 ≠ 0 then none
    else do
      let oh ← headerAt file r0
      let oplen ← oh.payloadLen
      let opayload ← filePayload file r0 oplen
      some ⟨h, payload, oh, opayload⟩

/-- The loop of `Index::find_first`, with the current index node, value
offset and key as the loop state.  The result is `some none` for
`Ok(None)`, `some (some row)` for `Ok(Some(row))`, and `none` for a panic,
a failed assertion or fuel exhaustion.  Note: the stored-key validation
(`offsets[pos] == key`) present in the spec is commented out in the
source, so no comparison with the stored key happens at all. -/
def findFirstLoop (file : RealmFile) (value : Bytes) :
    Nat → IndexM → Nat → Nat → Option (Option Nat)
  | 0, _, _, _ => none
  | fuel + 1, cur, valueOffset, key =>
    let pos := indexLowerBound cur.offsetsPayload cur.offsetsHdr.size key
    if pos = cur.offsetsHdr.size then some Option.none
    else if cur.arrayHdr.size ≤ pos then none
    else if cur.arrayHdr.size ≤ pos + 1 then none
    else
      let slot := readArrayValue cur.arrayPayload cur.arrayHdr.width (pos + 1)
      if cur.arrayHdr.isInnerBptree then
        if slot % 8 ≠ 0 then none
        else do
          let next ← indexFromRef file slot
          findFirstLoop file value fuel next valueOffset key
      else
        if slot % 2 = 1 then some (some (slot >>> 1))
        else do
          let h ← headerAt file slot
          let plen ← h.payloadLen
          let payload ← filePayload file slot plen
          if ¬h.contextFlag then
            if h.size < 1 then none
            else some (some (readArrayValue payload h.width 0))
          else do
            let next ← indexFromRef file slot
            let valueOffset2 := valueOffset + 4
            let key2 ← createKeyWithOffset value valueOffset2
            findFirstLoop file value fuel next valueOffset2 key2

/-- `Index::find_first`: coerce the probe, build the level-0 key with
`create_key`, and run the lookup loop from the root index node. -/
def findFirst (file : RealmFile) (rootRef : Nat) (v : RValue) (fuel : Nat) :
    Option (Option Nat) := do
  let root ← indexFromRef file rootRef
  let value := coerceToString v
  findFirstLoop file value fuel root 0 (createKey value)

/-- A concrete file holding a one-level index: the index array at ref 8
(slot 0 = offsets ref 24, slot 1 = tagged row 3 encoded as 7) with a
single stored key 100 in the width-32 offsets node at ref 24. -/
def c4File : RealmFile :=
  [0, 0, 0, 0, 0, 0, 0, 0,
   0x41, 0x41, 0x41, 0x41, 0x44, 0, 0, 2, 24, 7,
   0, 0, 0, 0, 0, 0,
   0x41, 0x41, 0x41, 0x41, 0x06, 0, 0, 1, 100, 0, 0, 0]

/-- The `IndexM` value `Index::from_ref` builds for the root of `c4File`. -/
def c4Root : IndexM :=
  ⟨⟨0x44, 2⟩, [24, 7], ⟨0x06, 1⟩, [100, 0, 0, 0]⟩

/-- C4 counterexample: probing `c4File` with the string "2" derives key 50;
the lower bound lands on position 0 whose stored key is 100 ≠ 50, yet
`find_first` returns `Some(3)` instead of the `None` the claim requires:
the validation `offsets[pos] == key` is commented out in the source. -/
theorem claim_C4_counterexample :
    findFirst c4File 8 (.str [50]) 4 = some (some 3) ∧
    indexFromRef c4File 8 = some c4Root ∧
    indexLowerBound c4Root.offsetsPayload c4Root.offsetsHdr.size
      (createKey (coerceToString (.str [50]))) = 0 ∧
    readArrayValue c4Root.offsetsPayload 32 0 = 100 ∧
    createKey (coerceToString (.str [50])) = 50 ∧
    (100 : Nat) ≠ 50 :=
  ⟨by decide, by decide, by decide, by decide, by decide, by decide⟩

/-- C4 (amended): `find_first` performs no key validation after the
lower-bound search.  At a non-inner index node it returns `None` exactly
when the lower bound lands at `offsets.size`; whenever the lower bound
lands at a position `pos < offsets.size` whose payload slot `pos + 1` is a
tagged value, it returns that row number — with no hypothesis at all
comparing the stored key `offsets[pos]` with the probe key. -/
theorem claim_C4 (file : RealmFile) (value : Bytes) (fuel : Nat)
    (cur : IndexM) (valueOffset key pos : Nat)
    (hpos : pos = indexLowerBound cur.offsetsPayload cur.offsetsHdr.size key) :
    (pos = cur.offsetsHdr.size →
      findFirstLoop file value (fuel + 1) cur valueOffset key =
        some Option.none) ∧
    (pos ≠ cur.offsetsHdr.size → pos + 1 < cur.arrayHdr.size →
      cur.arrayHdr.isInnerBptree = false →
      readArrayValue cur.arrayPayload cur.arrayHdr.width (pos + 1) % 2 = 1 →
      findFirstLoop file value (fuel + 1) cur valueOffset key =
        some (some (readArrayValue cur.arrayPayload cur.arrayHdr.width
          (pos + 1) >>> 1))) := by
  subst hpos
  constructor
  · intro h
    simp only [findFirstLoop]
    rw [if_pos h]
  · intro h1 h2 hinner hodd
    simp only [findFirstLoop]
    rw [if_neg h1, if_neg (by omega), if_neg (by omega),
      if_neg (by simp [hinner]), if_pos hodd]

theorem claim_C4_witness :
    ((0 : Nat) = indexLowerBound c4Root.offsetsPayload c4Root.offsetsHdr.size 50) ∧
    (((0 : Nat) = c4Root.offsetsHdr.size →
       findFirstLoop c4File [50] 4 c4Root 0 50 = some Option.none) ∧
     ((0 : Nat) ≠ c4Root.offsetsHdr.size → 0 + 1 < c4Root.arrayHdr.size →
       c4Root.arrayHdr.isInnerBptree = false →
       readArrayValue c4Root.arrayPayload c4Root.arrayHdr.width (0 + 1) % 2 = 1 →
       findFirstLoop c4File [50] 4 c4Root 0 50 =
         some (some (readArrayValue c4Root.arrayPayload c4Root.arrayHdr.width
           (0 + 1) >>> 1)))) :=
  ⟨by decide, claim_C4 c4File [50] 3 c4Root 0 50 0 (by decide)⟩

/-- C10: on every bit-packed array sorted non-decreasing over its first
`size` elements, and for every element width in 0/1/2/4/8/16/32/64, the
branchless three-times-unrolled `lower_bound` returns the least position
whose element is ≥ the probe (`size` when none exists) and `upper_bound`
the least position whose element is > the probe; `Index::lower_bound`, the
width-32 copy in `index.rs`, agrees as well. -/
theorem claim_C10 (data : Bytes) (width size value : Nat)
    (hw : width = 0 ∨ width = 1 ∨ width = 2 ∨ width = 4 ∨ width = 8 ∨
      width = 16 ∨ width = 32 ∨ width = 64)
    (hsort : SortedLE data width size) :
    lowerBound data width size value =
      textbookLowerBound (readArrayValue data width) size value ∧
    upperBound data width size value =
      textbookUpperBound (readArrayValue data width) size value ∧
    (width = 32 → indexLowerBound data size value =
      textbookLowerBound (readArrayValue data 32) size value) :=
  ⟨lowerBound_eq_textbook data width size value hsort,
   upperBound_eq_textbook data width size value hsort,
   fun h32 => by
    subst h32
    exact lowerBound_eq_textbook data 32 size value hsort⟩

theorem claim_C10_witness :
    ((8 : Nat) = 0 ∨ (8 : Nat) = 1 ∨ (8 : Nat) = 2 ∨ (8 : Nat) = 4 ∨
      (8 : Nat) = 8 ∨ (8 : Nat) = 16 ∨ (8 : Nat) = 32 ∨ (8 : Nat) = 64) ∧
    SortedLE [3, 3, 4, 7] 8 4 ∧
    (lowerBound [3, 3, 4, 7] 8 4 4 =
       textbookLowerBound (readArrayValue [3, 3, 4, 7] 8) 4 4 ∧
     upperBound [3, 3, 4, 7] 8 4 4 =
       textbookUpperBound (readArrayValue [3, 3, 4, 7] 8) 4 4 ∧
     ((8 : Nat) = 32 → indexLowerBound [3, 3, 4, 7] 4 4 =
       textbookLowerBound (readArrayValue [3, 3, 4, 7] 32) 4 4)) :=
  ⟨by decide, by decide, claim_C10 [3, 3, 4, 7] 8 4 4 (by decide) (by decide)⟩

/- ------------------------------------------------------------------ -/
/- Timestamp columns (`column/timestamp.rs`, `array/array_timestamp.rs`). -/
/- ------------------------------------------------------------------ -/

/-- The timestamp-relevant fragment of `Value`: `Value::None` or
`Value::Timestamp` carrying a chrono UTC instant (seconds, nanoseconds). -/
inductive TsValue where
  | none
  | timestamp (seconds : Int) (nanoseconds : Nat)
  deriving DecidableEq, Repr

/-- `impl From<Option<T>> for Value`: `None` becomes `Value::None`. -/
def tsValueOfOption : Option (Int × Nat) → TsValue
  | Option.none => .none
  | some t => .timestamp t.1 t.2

/-- `TimestampColumn::get`, with the two subtree accessors abstracted:
`secondsGet` is `BpTree<IntNullableColumnType>::get`, `nanosecondsGet` is
`BpTree<IntColumnType>::get` and `fromTimestamp` is chrono's
`DateTime::from_timestamp` (`none` = out of range).  A sentinel seconds
value returns `Value::None`; seconds 0 returns
`Value::Timestamp(Default::default())` — the Unix epoch — without reading
nanoseconds; otherwise the nanoseconds are read, truncated to `u32`, and
combined. -/
def timestampColumnGet (fromTimestamp : Int → Nat → Option (Int × Nat))
    (secondsGet : Nat → Option (Option Int)) (nanosecondsGet : Nat → Option Int)
    (index : Nat) : Option TsValue := do
  let s ← secondsGet index
  match s with
  | Option.none => some .none
  | some seconds =>
    if seconds = 0 then some (.timestamp 0 0)
    else do
      let n ← nanosecondsGet index
      some (tsValueOfOption (fromTimestamp seconds (u32OfI64 n)))

/-- `ArrayTimestamp::get`: seconds via `Array<u64>::get_integer` (`u64`,
reinterpreted as `i64` only after the zero test), nanoseconds via
`Array<u32>::get_integer`; seconds 0 is returned as `Ok(None)` without
reading nanoseconds. -/
def arrayTimestampGet (fromTimestamp : Int → Nat → Option (Int × Nat))
    (secondsGet : Nat → Option Nat) (nanosecondsGet : Nat → Option Nat)
    (index : Nat) : Option (Option (Int × Nat)) := do
  let seconds ← secondsGet index
  if seconds = 0 then some Option.none
  else do
    let n ← nanosecondsGet index
    some (fromTimestamp (i64OfU64 seconds) n)

/- ------------------------------------------------------------------ -/
/- Link lists (`column/linklist.rs`).                                  -/
/- ------------------------------------------------------------------ -/

/-- `LinkListLeaf::get_from_sub_array`: assert the sub-array is not an
inner B+Tree node, then map every element of the referenced integer leaf
to a `Link` (modelled as the pair target table × row number), in order. -/
def linkListFromSubArray (file : RealmFile) (targetTable subRef : Nat) :
    Option (List (Nat × Nat)) := do
  let sh ← headerAt file subRef
  if sh.isInnerBptree then none
  else do
    let splen ← sh.payloadLen
    let spayload ← filePayload file subRef splen
    some ((List.range sh.size).map fun i =>
      (targetTable, readArrayValue spayload sh.width i))

/-- `LinkListLeaf::get_direct`: a 0 slot yields `[]`; a slot decoded by
`RefOrTaggedValue::from_raw` as a tagged value (low bit 1) falls into the
catch-all arm and ALSO yields `[]`; only a nonzero even slot is followed
as a ref to the target-row integer leaf. -/
def linkListGetDirect (file : RealmFile) (targetTable ref index : Nat) :
    Option (List (Nat × Nat)) := do
  let h ← headerAt file ref
  let plen ← h.payloadLen
  let payload ← filePayload file ref plen
  let v := readArrayValue payload h.width index
  if v = 0 then some []
  else if v % 2 = 1 then some []
  else linkListFromSubArray file targetTable v

/-- `LinkListLeaf::get` on a loaded leaf (header + payload):
`get_ref_or_tagged_value` (the `Array` wrapper is modelled from the spec,
§3 slot decoding, and matches the `ArrayBasic` twin present in src) gives
`None` for 0 and a tagged value for odd slots, and both fall into the
match's catch-all `[]` arm; a ref slot is followed as in `get_direct`. -/
def linkListLeafGet (file : RealmFile) (targetTable : Nat) (h : NodeHeader)
    (payload : Bytes) (index : Nat) : Option (List (Nat × Nat)) :=
  let v := readArrayValue payload h.width index
  if v = 0 then some []
  else if v % 2 = 1 then some []
  else linkListFromSubArray file targetTable v

/-- A concrete file holding a link-list leaf at ref 8 with three slots:
0 (empty), 7 (tagged row 3) and 24 (ref to the integer leaf 5, 9). -/
def c6File : RealmFile :=
  [0, 0, 0, 0, 0, 0, 0, 0,
   0x41, 0x41, 0x41, 0x41, 0x44, 0, 0, 3, 0, 7, 24,
   0, 0, 0, 0, 0,
   0x41, 0x41, 0x41, 0x41, 0x04, 0, 0, 2, 5, 9]

/- ------------------------------------------------------------------ -/
/- Short strings (`array/array_string_short.rs`).                      -/
/- ------------------------------------------------------------------ -/

/-- `ArrayStringShort::get_static`: width 0 is null; otherwise slice the
W-byte slot (out of bounds panics: `none`), read the trailing-zero count
`z` from its last byte; `z = W` is null, `z ≤ W − 1` yields the first
`W − 1 − z` bytes, and `z > W` underflows the usize subtraction in Rust
(`none`). -/
def arrayStringShortGetStatic (width : Nat) (payload : Bytes) (index : Nat) :
    Option (Option Bytes) :=
  if width = 0 then some Option.none
  else if (index + 1) * width ≤ payload.length then
    let elementData := (payload.drop (index * width)).take width
    let zeroes := elementData.getD (width - 1) 0
    if zeroes = width then some Option.none
    else if zeroes + 1 ≤ width then
      some (some (elementData.take (width - 1 - zeroes)))
    else none
  else none

/-- `ArrayStringShort::is_null`: width 0 is null; otherwise read only the
slot's last byte and compare it with the width. -/
def arrayStringShortIsNull (width : Nat) (payload : Bytes) (index : Nat) :
    Option Bool :=
  if width = 0 then some true
  else
    let widthByteIndex := index * width + width - 1
    if widthByteIndex < payload.length then
      some (decide (payload.getD widthByteIndex 0 = width))
    else none

/- ------------------------------------------------------------------ -/
/- File header and `Realm::open` (`realm.rs`).                         -/
/- ------------------------------------------------------------------ -/

/-- `realm::Header`: two top refs, magic, format version, reserved byte
and flags. -/
structure FileHeader where
  topRef0 : Nat
  topRef1 : Nat
  magic : Bytes
  fmtVer0 : Nat
  fmtVer1 : Nat
  reserved : Nat
  flags : Nat
  deriving DecidableEq, Repr

/-- `Header::parse`: reject a buffer shorter than 24 bytes or a magic
other than the bytes of T-DB; nothing else is checked. -/
def FileHeader.parse (buf : Bytes) : Option FileHeader :=
  if buf.length < 24 then none
  else
    let h : FileHeader := ⟨leRead buf 0 8, leRead buf 8 8,
      (buf.drop 16).take 4, buf.getD 20 0, buf.getD 21 0, buf.getD 22 0,
      buf.getD 23 0⟩
    if h.magic = [0x54, 0x2D, 0x44, 0x42] then some h else none

/-- `Header::is_encrypted`: flags bit 7. -/
def FileHeader.isEncrypted (h : FileHeader) : Bool := h.flags &&& 0x80 ≠ 0

/-- `Realm::open`: map the file, slice its first 24 bytes (a shorter file
panics on the slice) and parse the header.  No other validation happens:
in particular `is_encrypted` is never called. -/
def realmOpen (file : RealmFile) : Option FileHeader :=
  if file.length < 24 then none
  else FileHeader.parse (file.take 24)

/-- A minimal 24-byte file with valid magic and the encryption bit
(flags bit 7) set. -/
def c8File : RealmFile :=
  [0, 0, 0, 0, 0, 0, 0, 0,
   0, 0, 0, 0, 0, 0, 0, 0,
   0x54, 0x2D, 0x44, 0x42, 0, 20, 0, 0x80]

/- ------------------------------------------------------------------ -/
/- Nullable integer leaves (`column/integer_optional.rs`,               -/
/- `array/integer_array.rs`).                                          -/
/- ------------------------------------------------------------------ -/

/-- Modelled from the spec, §4.4: slot 0 of a nullable leaf holds the
sentinel and logical element `i` lives at slot `i + 1`, so a node of
`size` slots stores `size − 1` logical elements. -/
def logicalElementCount (h : NodeHeader) : Nat := h.size - 1

/-- `size()` of `impl ArrayLike<Option<i64>> for IntegerArray` and of
`OptionalIntegerArrayLeaf`: the node's raw header size, i.e. the physical
slot count.  (`IntegerArray::element_count`, which the leaf delegates to,
is missing from src/ and is modelled from the spec leaf contract and the
generic `Array::element_count` in `array/mod.rs`, both of which give the
header size for a leaf.) -/
def optIntLeafSize (h : NodeHeader) : Nat := h.size

/-- `OptionalIntegerArrayLeaf::get` / the `Option<i64>` `IntegerArray`
accessor: read slot `index + 1`, compare with the sentinel in slot 0. -/
def optIntLeafGet (h : NodeHeader) (payload : Bytes) (index : Nat) :
    Option Int :=
  let value := readArrayValue payload h.width (index + 1)
  let nullValue := readArrayValue payload h.width 0
  if value = nullValue then Option.none else some (i64OfU64 value)

/-- `OptionalIntegerArrayLeaf::is_null`. -/
def optIntLeafIsNull (h : NodeHeader) (payload : Bytes) (index : Nat) : Bool :=
  readArrayValue payload h.width (index + 1) = readArrayValue payload h.width 0

/-- `BpTree::count` when the tree root is itself a leaf:
`root_as_leaf()?.size()`. -/
def bpTreeLeafRootCount (h : NodeHeader) : Nat := optIntLeafSize h

/-- C5 counterexample: at a row whose stored seconds is 0 (not the
sentinel) with nanoseconds 0, the claim demands null, but
`TimestampColumn::get` returns `Value::Timestamp(Default::default())` —
the epoch instant, not `Value::None`; and `ArrayTimestamp::get` returns
null for seconds 0 even when nanoseconds is 5, where the claim demands the
combined instant. -/
theorem claim_C5_counterexample :
    timestampColumnGet (fun s n => some (s, n)) (fun _ => some (some 0))
      (fun _ => some 0) 0 = some (.timestamp 0 0) ∧
    TsValue.timestamp 0 0 ≠ TsValue.none ∧
    arrayTimestampGet (fun s n => some (s, n)) (fun _ => some 0)
      (fun _ => some 5) 0 = some Option.none :=
  ⟨by decide, by decide, by decide⟩

/-- C5 (amended): `TimestampColumn::get` returns null exactly when the
seconds entry is the nullable sentinel; seconds 0 (whatever the
nanoseconds, which are not even read) yields the default epoch timestamp,
not null; in every other case it combines the seconds with the u32-cast
nanoseconds via `DateTime::from_timestamp`.  `ArrayTimestamp::get`
instead returns null whenever seconds is 0, again without reading
nanoseconds. -/
theorem claim_C5 (ft : Int → Nat → Option (Int × Nat))
    (secG : Nat → Option (Option Int)) (nanoG : Nat → Option Int)
    (secA nanoA : Nat → Option Nat) (i : Nat) :
    (secG i = some Option.none →
      timestampColumnGet ft secG nanoG i = some .none) ∧
    (secG i = some (some 0) →
      timestampColumnGet ft secG nanoG i = some (.timestamp 0 0)) ∧
    (∀ s n, secG i = some (some s) → s ≠ 0 → nanoG i = some n →
      timestampColumnGet ft secG nanoG i =
        some (tsValueOfOption (ft s (u32OfI64 n)))) ∧
    (secA i = some 0 → arrayTimestampGet ft secA nanoA i = some Option.none) ∧
    (∀ s n, secA i = some s → s ≠ 0 → nanoA i = some n →
      arrayTimestampGet ft secA nanoA i = some (ft (i64OfU64 s) n)) := by
  refine ⟨?_, ?_, ?_, ?_, ?_⟩
  · intro h
    simp [timestampColumnGet, h]
  · intro h
    simp [timestampColumnGet, h]
  · intro s n hs hne hn
    simp [timestampColumnGet, hs, hn, hne]
  · intro h
    simp [arrayTimestampGet, h]
  · intro s n hs hne hn
    simp [arrayTimestampGet, hs, hn, hne]

theorem claim_C5_witness :
    ((fun _ : Nat => some (some (5 : Int))) 0 = some Option.none →
      timestampColumnGet (fun s n => some (s, n))
        (fun _ => some (some 5)) (fun _ => some 7) 0 = some .none) ∧
    ((fun _ : Nat => some (some (5 : Int))) 0 = some (some 0) →
      timestampColumnGet (fun s n => some (s, n))
        (fun _ => some (some 5)) (fun _ => some 7) 0 =
        some (.timestamp 0 0)) ∧
    (∀ s n, (fun _ : Nat => some (some (5 : Int))) 0 = some (some s) →
      s ≠ 0 → (fun _ : Nat => some (7 : Int)) 0 = some n →
      timestampColumnGet (fun s n => some (s, n))
        (fun _ => some (some 5)) (fun _ => some 7) 0 =
        some (tsValueOfOption (some (s, u32OfI64 n)))) ∧
    ((fun _ : Nat => some (5 : Nat)) 0 = some 0 →
      arrayTimestampGet (fun s n => some (s, n)) (fun _ => some 5)
        (fun _ => some 7) 0 = some Option.none) ∧
    (∀ s n, (fun _ : Nat => some (5 : Nat)) 0 = some s → s ≠ 0 →
      (fun _ : Nat => some (7 : Nat)) 0 = some n →
      arrayTimestampGet (fun s n => some (s, n)) (fun _ => some 5)
        (fun _ => some 7) 0 = some (some (i64OfU64 s, n))) :=
  claim_C5 (fun s n => some (s, n)) (fun _ => some (some 5)) (fun _ => some 7)
    (fun _ => some 5) (fun _ => some 7) 0

/-- C6 counterexample: slot 1 of the `c6File` leaf holds the tagged inline
value 7 (row 3); the claim demands the one-element vector with a link to
row 3, but both accessors return the empty vector. -/
theorem claim_C6_counterexample :
    linkListGetDirect c6File 2 8 1 = some [] ∧
    linkListLeafGet c6File 2 ⟨0x44, 3⟩ [0, 7, 24] 1 = some [] ∧
    ([((2 : Nat), (3 : Nat))] : List (Nat × Nat)) ≠ [] :=
  ⟨by decide, by decide, by decide⟩

/-- C6 (amended): for every element of a link-list leaf, a slot equal to 0
yields the empty vector; a tagged inline slot (low bit 1) ALSO yields the
empty vector (the single-inline-link case the claim describes is not
implemented — tagged slots fall into the catch-all arm); and a ref slot
yields one Link per element of the referenced integer leaf, in order.
This holds for both the persistent-leaf accessor and the direct
accessor. -/
theorem claim_C6 (file : RealmFile) (targetTable ref index : Nat)
    (h : NodeHeader) (plen : Nat) (payload : Bytes)
    (hh : headerAt file ref = some h) (hp : h.payloadLen = some plen)
    (hpl : filePayload file ref plen = some payload) :
    (readArrayValue payload h.width index = 0 →
      linkListGetDirect file targetTable ref index = some [] ∧
      linkListLeafGet file targetTable h payload index = some []) ∧
    (readArrayValue payload h.width index % 2 = 1 →
      linkListGetDirect file targetTable ref index = some [] ∧
      linkListLeafGet file targetTable h payload index = some []) ∧
    (∀ sh splen spayload,
      readArrayValue payload h.width index ≠ 0 →
      readArrayValue payload h.width index % 2 = 0 →
      headerAt file (readArrayValue payload h.width index) = some sh →
      sh.isInnerBptree = false →
      sh.payloadLen = some splen →
      filePayload file (readArrayValue payload h.width index) splen =
        some spayload →
      linkListGetDirect file targetTable ref index =
        some ((List.range sh.size).map fun i =>
          (targetTable, readArrayValue spayload sh.width i)) ∧
      linkListLeafGet file targetTable h payload index =
        some ((List.range sh.size).map fun i =>
          (targetTable, readArrayValue spayload sh.width i))) := by
  refine ⟨?_, ?_, ?_⟩
  · intro h0
    constructor
    · simp [linkListGetDirect, hh, hp, hpl, h0]
    · simp [linkListLeafGet, h0]
  · intro hodd
    have h0 : readArrayValue payload h.width index ≠ 0 := by omega
    constructor
    · simp [linkListGetDirect, hh, hp, hpl, h0, hodd]
    · simp [linkListLeafGet, h0, hodd]
  · intro sh splen spayload h0 heven hsh hinner hsplen hspl
    have hsub : linkListFromSubArray file targetTable
        (readArrayValue payload h.width index) =
        some ((List.range sh.size).map fun i =>
          (targetTable, readArrayValue spayload sh.width i)) := by
      simp [linkListFromSubArray, hsh, hinner, hsplen, hspl]
    constructor
    · simp [linkListGetDirect, hh, hp, hpl, h0, heven, hsub]
    · simp [linkListLeafGet, h0, heven, hsub]

theorem claim_C6_witness :
    headerAt c6File 8 = some ⟨0x44, 3⟩ ∧
    NodeHeader.payloadLen ⟨0x44, 3⟩ = some 3 ∧
    filePayload c6File 8 3 = some [0, 7, 24] ∧
    ((readArrayValue [0, 7, 24] (NodeHeader.width ⟨0x44, 3⟩) 2 = 0 →
       linkListGetDirect c6File 2 8 2 = some [] ∧
       linkListLeafGet c6File 2 ⟨0x44, 3⟩ [0, 7, 24] 2 = some []) ∧
     (readArrayValue [0, 7, 24] (NodeHeader.width ⟨0x44, 3⟩) 2 % 2 = 1 →
       linkListGetDirect c6File 2 8 2 = some [] ∧
       linkListLeafGet c6File 2 ⟨0x44, 3⟩ [0, 7, 24] 2 = some []) ∧
     (∀ sh splen spayload,
       readArrayValue [0, 7, 24] (NodeHeader.width ⟨0x44, 3⟩) 2 ≠ 0 →
       readArrayValue [0, 7, 24] (NodeHeader.width ⟨0x44, 3⟩) 2 % 2 = 0 →
       headerAt c6File (readArrayValue [0, 7, 24] (NodeHeader.width ⟨0x44, 3⟩) 2) =
         some sh →
       sh.isInnerBptree = false →
       sh.payloadLen = some splen →
       filePayload c6File (readArrayValue [0, 7, 24] (NodeHeader.width ⟨0x44, 3⟩) 2)
         splen = some spayload →
       linkListGetDirect c6File 2 8 2 =
         some ((List.range sh.size).map fun i =>
           (2, readArrayValue spayload sh.width i)) ∧
       linkListLeafGet c6File 2 ⟨0x44, 3⟩ [0, 7, 24] 2 =
         some ((List.range sh.size).map fun i =>
           (2, readArrayValue spayload sh.width i)))) :=
  ⟨by decide, by decide, by decide,
   claim_C6 c6File 2 8 2 ⟨0x44, 3⟩ 3 [0, 7, 24] (by decide) (by decide)
     (by decide)⟩

theorem getD_take_lt (l : Bytes) (n m : Nat) (h : m < n) :
    (l.take n).getD m 0 = l.getD m 0 := by
  rw [List.getD_eq_getD_get?, List.getD_eq_getD_get?, List.get?_take h]

/-- C7: for every short-string leaf of width W > 0 and in-range element
`index`, with `z` the last byte of the W-byte slot (0 ≤ z ≤ W): the
element decodes to null exactly when z = W, and otherwise to the string
made of the first W − 1 − z bytes of the slot; z = W − 1 gives the empty
non-null string; `is_null` reads only that last byte; and a width-0 leaf
decodes every element as null. -/
theorem claim_C7 (width : Nat) (payload : Bytes) (index z : Nat)
    (hw : 0 < width) (hb : (index + 1) * width ≤ payload.length)
    (hz : z = payload.getD (index * width + (width - 1)) 0) (hzw : z ≤ width) :
    (z = width →
      arrayStringShortGetStatic width payload index = some Option.none) ∧
    (z < width →
      arrayStringShortGetStatic width payload index =
        some (some ((payload.drop (index * width)).take (width - 1 - z)))) ∧
    (z = width - 1 →
      arrayStringShortGetStatic width payload index = some (some [])) ∧
    (arrayStringShortIsNull width payload index = some (decide (z = width))) ∧
    (∀ p i, arrayStringShortGetStatic 0 p i = some Option.none ∧
      arrayStringShortIsNull 0 p i = some true) := by
  have hexp : (index + 1) * width = index * width + width := by ring
  have hzdef : ((payload.drop (index * width)).take width).getD (width - 1) 0 = z := by
    rw [getD_take_lt _ _ _ (by omega), getD_drop_zero]
    exact hz.symm
  have hget : arrayStringShortGetStatic width payload index =
      (if z = width then some Option.none
       else if z + 1 ≤ width then
         some (some (((payload.drop (index * width)).take width).take
           (width - 1 - z)))
       else none) := by
    simp only [arrayStringShortGetStatic]
    rw [if_neg (by omega : ¬width = 0), if_pos hb, hzdef]
  refine ⟨?_, ?_, ?_, ?_, ?_⟩
  · intro h1
    rw [hget, if_pos h1]
  · intro h1
    rw [hget, if_neg (by omega), if_pos (by omega), List.take_take,
      Nat.min_eq_left (by omega)]
  · intro h1
    rw [hget, if_neg (by omega), if_pos (by omega),
      show width - 1 - z = 0 from by omega, List.take_zero]
  · simp only [arrayStringShortIsNull]
    rw [if_neg (by omega : ¬width = 0),
      if_pos (by omega : index * width + width - 1 < payload.length),
      show index * width + width - 1 = index * width + (width - 1) from by omega,
      ← hz]
  · intro p i
    constructor
    · simp [arrayStringShortGetStatic]
    · simp [arrayStringShortIsNull]

theorem claim_C7_witness :
    0 < 4 ∧ (0 + 1) * 4 ≤ ([104, 105, 0, 1] : Bytes).length ∧
    (1 : Nat) = ([104, 105, 0, 1] : Bytes).getD (0 * 4 + (4 - 1)) 0 ∧
    (1 : Nat) ≤ 4 ∧
    (((1 : Nat) = 4 →
       arrayStringShortGetStatic 4 [104, 105, 0, 1] 0 = some Option.none) ∧
     ((1 : Nat) < 4 →
       arrayStringShortGetStatic 4 [104, 105, 0, 1] 0 =
         some (some ((([104, 105, 0, 1] : Bytes).drop (0 * 4)).take (4 - 1 - 1)))) ∧
     ((1 : Nat) = 4 - 1 →
       arrayStringShortGetStatic 4 [104, 105, 0, 1] 0 = some (some [])) ∧
     (arrayStringShortIsNull 4 [104, 105, 0, 1] 0 =
       some (decide ((1 : Nat) = 4))) ∧
     (∀ p i, arrayStringShortGetStatic 0 p i = some Option.none ∧
       arrayStringShortIsNull 0 p i = some true)) :=
  ⟨by decide, by decide, by decide, by decide,
   claim_C7 4 [104, 105, 0, 1] 0 1 (by decide) (by decide) (by decide)
     (by decide)⟩

/-- C8: opening the 24-byte `c8File`, whose flags byte has bit 7 set,
SUCCEEDS: `Realm::open` only checks the length and the magic, never
`is_encrypted`, so a usable handle is returned for an encrypted file —
the fail-fast the claim (and the spec) require does not happen. -/
theorem claim_C8 :
    (realmOpen c8File).isSome = true ∧
    Option.map FileHeader.isEncrypted (realmOpen c8File) = some true ∧
    realmOpen c8File =
      some ⟨0, 0, [0x54, 0x2D, 0x44, 0x42], 0, 20, 0, 0x80⟩ :=
  ⟨by decide, by decide, by decide⟩

/-- C9: for a nullable integer or boolean leaf (slot 0 = sentinel, logical
element i at slot i + 1), `size()` returns the node's physical slot count,
which is one more than the number of logical elements; a column `count()`
whose tree root is such a leaf therefore reports one more than the number
of rows.  The accessors' slot shift is stated explicitly. -/
theorem claim_C9 (h : NodeHeader) (payload : Bytes) (hsz : 1 ≤ h.size) :
    optIntLeafSize h = h.size ∧
    optIntLeafSize h = logicalElementCount h + 1 ∧
    bpTreeLeafRootCount h = logicalElementCount h + 1 ∧
    (∀ i, optIntLeafGet h payload i =
      (if readArrayValue payload h.width (i + 1) =
          readArrayValue payload h.width 0
       then Option.none
       else some (i64OfU64 (readArrayValue payload h.width (i + 1))))) ∧
    (∀ i, optIntLeafIsNull h payload i =
      decide (readArrayValue payload h.width (i + 1) =
        readArrayValue payload h.width 0)) := by
  refine ⟨rfl, ?_, ?_, fun i => rfl, fun i => rfl⟩
  · simp only [optIntLeafSize, logicalElementCount]
    omega
  · simp only [bpTreeLeafRootCount, optIntLeafSize, logicalElementCount]
    omega

theorem claim_C9_witness :
    1 ≤ (NodeHeader.mk 0x04 3).size ∧
    (optIntLeafSize ⟨0x04, 3⟩ = (NodeHeader.mk 0x04 3).size ∧
     optIntLeafSize ⟨0x04, 3⟩ = logicalElementCount ⟨0x04, 3⟩ + 1 ∧
     bpTreeLeafRootCount ⟨0x04, 3⟩ = logicalElementCount ⟨0x04, 3⟩ + 1 ∧
     (∀ i, optIntLeafGet ⟨0x04, 3⟩ [0, 5, 9] i =
       (if readArrayValue [0, 5, 9] (NodeHeader.width ⟨0x04, 3⟩) (i + 1) =
           readArrayValue [0, 5, 9] (NodeHeader.width ⟨0x04, 3⟩) 0
        then Option.none
        else some (i64OfU64 (readArrayValue [0, 5, 9]
          (NodeHeader.width ⟨0x04, 3⟩) (i + 1))))) ∧
     (∀ i, optIntLeafIsNull ⟨0x04, 3⟩ [0, 5, 9] i =
       decide (readArrayValue [0, 5, 9] (NodeHeader.width ⟨0x04, 3⟩) (i + 1) =
         readArrayValue [0, 5, 9] (NodeHeader.width ⟨0x04, 3⟩) 0))) :=
  ⟨by decide, claim_C9 ⟨0x04, 3⟩ [0, 5, 9] (by decide)⟩
